import Mathlib

/-
Verification development for revup.py, a directive-driven automation layer
around the `resim` command-line tool.

The Python source is shallowly embedded below.  Pure string manipulation is
translated to executable Lean functions over `String` / `List Char` with
Python semantics (`str.split`, `str.replace`, `str.strip`, `str.find`,
`re.search` for the concrete patterns appearing in the source).  The
side-effecting parts (subprocess spawning, file reads and writes) are modelled
with an explicit `World` (the observable environment: what `resim` prints for
a given argument vector, and the content of manifest files) and an explicit
trace of `Effect`s (process spawns, file reads, file writes).  Logging calls
are not modelled as observable effects.
-/

namespace Revup

/-! ## Python string primitives -/

/-- Boolean test that `pat` is a list-of-chars pre of `l` (models Python
substring match anchored at the start). -/
def prefOf : List Char → List Char → Bool
  | [], _ => true
  | _ :: _, [] => false
  | c :: cs, d :: ds => if c = d then prefOf cs ds else false

/-- Models Python `txt.find(pat) != -1` (substring occurrence test), over
char lists: some suffix of the text starts with `pat`. -/
def containsSubL (pat : List Char) : List Char → Bool
  | [] => prefOf pat []
  | c :: cs => prefOf pat (c :: cs) || containsSubL pat cs

/-- Models Python `pat in txt` / `txt.find(pat) != -1`. -/
def containsSub (txt pat : String) : Bool :=
  containsSubL pat.data txt.data

/-- Fuel-driven worker for `pyReplaceL`; the fuel starts at the length of the
text, which bounds the number of steps, so the `0` case is never reached on
the initial call. -/
def pyReplaceFuel (pat repl : List Char) : Nat → List Char → List Char
  | _, [] => []
  | 0, l => l
  | n + 1, c :: cs =>
    if pat ≠ [] ∧ prefOf pat (c :: cs) then
      repl ++ pyReplaceFuel pat repl n (cs.drop (pat.length - 1))
    else
      c :: pyReplaceFuel pat repl n cs

/-- Models Python `txt.replace(pat, repl)` for a nonempty `pat`: every
non-overlapping occurrence, scanning left to right, is replaced. -/
def pyReplaceL (pat repl l : List Char) : List Char :=
  pyReplaceFuel pat repl l.length l

/-- Models Python `txt.replace(pat, repl)` for a nonempty `pat`. -/
def pyReplace (txt pat repl : String) : String :=
  ⟨pyReplaceL pat.data repl.data txt.data⟩

/-- The characters Python `str.strip()` removes. -/
def isPySpace (c : Char) : Bool :=
  c = ' ' || c = '\t' || c = '\n' || c = '\r' || c = '\x0b' || c = '\x0c'

/-- Models Python `s.strip()` over char lists. -/
def pyStripL (l : List Char) : List Char :=
  ((l.dropWhile isPySpace).reverse.dropWhile isPySpace).reverse

/-- Models Python `s.strip()`. -/
def pyStrip (s : String) : String :=
  ⟨pyStripL s.data⟩

/-- Models Python `s.split(" ")` over char lists: split on every single
space, keeping empty segments. -/
def splitSpace : List Char → List (List Char)
  | [] => [[]]
  | c :: cs =>
    if c = ' ' then [] :: splitSpace cs
    else
      match splitSpace cs with
      | [] => [[c]]
      | s :: ss => (c :: s) :: ss

/-- Models Python `s.split("->")` over char lists: split on every
non-overlapping occurrence of the two-character delimiter, left to right. -/
def splitArrow : List Char → List (List Char)
  | [] => [[]]
  | [c] => [[c]]
  | c1 :: c2 :: cs =>
    if c1 = '-' ∧ c2 = '>' then [] :: splitArrow cs
    else
      match splitArrow (c2 :: cs) with
      | [] => [[c1]]
      | s :: ss => (c1 :: s) :: ss

/-- Models Python `s.split(" ")`. -/
def pySplitSpace (s : String) : List String :=
  (splitSpace s.data).map String.mk

/-- Models Python `s.split("->")`. -/
def pySplitArrow (s : String) : List String :=
  (splitArrow s.data).map String.mk

/-- Models `part.strip().replace("\n", "")` as applied to both halves of a
directive line in `Revup.process_inputfile`. -/
def normalizeToken (s : String) : String :=
  ⟨(pyStripL s.data).filter (fun c => if c = '\n' then false else true)⟩

/-- Occurrence test for the directive delimiter `->` in a char list, used to
state which line decompositions are unambiguous. -/
def hasArrowL : List Char → Bool
  | [] => false
  | [_] => false
  | c1 :: c2 :: cs => (decide (c1 = '-') && decide (c2 = '>')) || hasArrowL (c2 :: cs)

/-- Occurrence test for the directive delimiter `->` in a string. -/
def hasArrow (s : String) : Bool :=
  hasArrowL s.data

/-! ## The binding map (Python `dict` with insertion order) -/

/-- The binding map of one interpreter run: name-to-address pairs in Python
dict insertion order. -/
abbrev PropsMap := List (String × String)

/-- Models Python `m[k] = v` on an insertion-ordered dict: an existing key
keeps its position and gets the new value, a new key is appended. -/
def dictUpdate (m : PropsMap) (k v : String) : PropsMap :=
  if m.any (fun p => p.1 = k) then
    m.map (fun p => if p.1 = k then (k, v) else p)
  else
    m ++ [(k, v)]

/-- Models Python `m[k]` lookup (first — and for a real dict, only — entry
with the key). -/
def dictLookup : PropsMap → String → Option String
  | [], _ => none
  | (k, v) :: m, q => if k = q then some v else dictLookup m q

/-- Models Python `m.update(u)`: every entry of `u` is assigned into `m`,
in `u`'s iteration order. -/
def dictMerge (m u : PropsMap) : PropsMap :=
  u.foldl (fun acc p => dictUpdate acc p.1 p.2) m

/-- The keys of a binding map, in order. -/
def dictKeys (m : PropsMap) : List String :=
  m.map Prod.fst

/-- Key uniqueness, the defining invariant of a Python dict. -/
def nodupKeys (m : PropsMap) : Prop :=
  (dictKeys m).Nodup

/-! ## Source constants (revup.py lines 8-10) -/

def RESIM_COMMAND : String := "resim"

def ENV_FILE : String := ".env"

/-! ## perform_variable_sub (revup.py lines 18-22) -/

/-- Embeds `perform_variable_sub`: scan the bound names in map order; for the
first name `k` whose placeholder `$k` occurs in `txt`, return
`txt.replace("$k", v)` (Python `replace` rewrites every occurrence); if no
placeholder occurs, return `txt` unchanged. -/
def perform_variable_sub (txt : String) (named_props : PropsMap) : String :=
  match named_props with
  | [] => txt
  | (k, v) :: rest =>
    if containsSub txt ("$" ++ k) then pyReplace txt ("$" ++ k) v
    else perform_variable_sub txt rest

/-- One placeholder replacement of only the first occurrence, following the
wording of the specification ("the first matching placeholder occurrence
replaced", "replaces a single placeholder occurrence"); used to compare the
spec's words against the code's `str.replace` behavior. -/
def replaceFirstOccL (pat repl : List Char) : List Char → List Char
  | [] => []
  | c :: cs =>
    if pat ≠ [] ∧ prefOf pat (c :: cs) then repl ++ cs.drop (pat.length - 1)
    else c :: replaceFirstOccL pat repl cs

/-- String wrapper for `replaceFirstOccL`. -/
def replaceFirstOcc (txt pat repl : String) : String :=
  ⟨replaceFirstOccL pat.data repl.data txt.data⟩

/-! ## Address extraction (revup.py lines 113-119 and 141-149) -/

/-- The character class `[0-9a-fA-F]`. -/
def hexChar (c : Char) : Bool :=
  c.isDigit || ('a' ≤ c && c ≤ 'f') || ('A' ≤ c && c ≤ 'F')

/-- Models matching `<label>([0-9a-fA-F]+)` (with `re.IGNORECASE`) anchored
at the start of `l`: the label must appear case-insensitively, followed by at
least one hex character; the captured group is the maximal hex run. -/
def matchLabelHexAt (label : List Char) (l : List Char) : Option (List Char) :=
  if (l.take label.length).map Char.toLower = label.map Char.toLower then
    let hex := (l.drop label.length).takeWhile hexChar
    if hex ≠ [] then some hex else none
  else none

/-- Models `re.search` for the label-plus-hex patterns: the match attempt is
made at each position, left to right, and the first success wins. -/
def searchLabelHexL (label : List Char) : List Char → Option (List Char)
  | [] => matchLabelHexAt label []
  | c :: cs => (matchLabelHexAt label (c :: cs)).orElse fun _ => searchLabelHexL label cs

/-- Models `re.search(re.compile(label + "([0-9a-fA-F]+)", re.IGNORECASE), line)`
returning `group(1)`. -/
def searchLabelHex (label line : String) : Option String :=
  (searchLabelHexL label.data line.data).map String.mk

/-- The labels of `ResimExecutor.address_extract_patterns`, in declaration
order (revup.py lines 113-119). -/
def address_extract_labels : List String :=
  ["component: ", "resource: ", "package: ", "account component address: ", "public key: "]

/-- The addresses one output line contributes: every pattern that matches the
line appends its captured group, in pattern-declaration order. -/
def lineHits (line : String) : List String :=
  address_extract_labels.filterMap fun lab => searchLabelHex lab line

/-- Embeds `ResimExecutor.extract_output_addresses`: for each output line, in
order, try every pattern in order and append each captured hex token. -/
def extract_output_addresses (cmd_output : List String) : List String :=
  cmd_output.foldl (fun addresses line => addresses ++ lineHits line) []

/-! ## The manifest-file regexes (revup.py lines 123 and 152) -/

/-- Python `\w` restricted to ASCII: letters, digits and underscore. -/
def wordChar (c : Char) : Bool :=
  c.isAlphanum || c = '_'

/-- The literal `\.rtm` part of the filename pattern: case-insensitive
(`ci = true`, as compiled in `do_run_manifest`) or exact (`ci = false`, as in
`execute`'s mode test). -/
def rtmExtOk : Bool → List Char → Prop
  | true, ext => ext.map Char.toLower = ['.', 'r', 't', 'm']
  | false, ext => ext = ['.', 'r', 't', 'm']

instance (ci : Bool) (ext : List Char) : Decidable (rtmExtOk ci ext) :=
  match ci with
  | true => inferInstanceAs (Decidable (ext.map Char.toLower = ['.', 'r', 't', 'm']))
  | false => inferInstanceAs (Decidable (ext = ['.', 'r', 't', 'm']))

/-- Models matching `(\w+\.rtm)` anchored at the start of `l`; `ci` selects
`re.IGNORECASE` (used by `do_run_manifest`'s pattern but not by `execute`'s).
The greedy `\w+` run is forced to be maximal because `.` is not a word
character.  Returns the captured text. -/
def rtmAt (ci : Bool) (l : List Char) : Option (List Char) :=
  if l.takeWhile wordChar ≠ [] ∧ rtmExtOk ci ((l.drop (l.takeWhile wordChar).length).take 4) then
    some (l.takeWhile wordChar ++ (l.drop (l.takeWhile wordChar).length).take 4)
  else none

/-- Models `re.search(r"(\w+\.rtm)", s)`: leftmost match of `rtmAt`. -/
def findRtm (ci : Bool) : List Char → Option (List Char)
  | [] => none
  | c :: cs => (rtmAt ci (c :: cs)).orElse fun _ => findRtm ci cs

/-- Models `re.search(re.compile(r"(\w+\.rtm)", re.IGNORECASE), cmd)` with
`group(1)`, as used by `do_run_manifest` to locate the manifest file name. -/
def findRtmS (s : String) : Option String :=
  (findRtm true s.data).map String.mk

/-- Helper for the `run .+(\w+\.rtm)` search: from the current position,
either `(\w+\.rtm)` matches here, or the current character can be consumed by
`.+` (so it must not be a newline) and the match is found further right. -/
def rtmSearchNoNl : List Char → Bool
  | [] => false
  | c :: cs => (rtmAt false (c :: cs)).isSome || (decide (c ≠ '\n') && rtmSearchNoNl cs)

/-- After the literal `run `, the pattern `.+(\w+\.rtm)` needs at least one
non-newline character before the capture group can start. -/
def gapThenRtm : List Char → Bool
  | [] => false
  | c :: cs => decide (c ≠ '\n') && rtmSearchNoNl cs

/-- Models `re.search(r"run .+(\w+\.rtm)", cmd) is not None` (case-sensitive:
this pattern is compiled without `re.IGNORECASE`), the manifest-mode test of
`ResimExecutor.execute`. -/
def isRunManifestL : List Char → Bool
  | [] => false
  | c :: cs => (prefOf ['r', 'u', 'n', ' '] (c :: cs) && gapThenRtm (cs.drop 3)) || isRunManifestL cs

/-! ## The external world and the effect trace -/

/-- The observable environment of one run: what `resim` prints on success for
a given argument vector (`none` models a non-zero exit, in which case stderr
is logged and no stdout is consumed), and the line content of manifest files
(`none` models an unreadable file, whose open raises and is caught). -/
structure World where
  resimOutput : List String → Option (List String)
  manifestFile : String → Option (List String)

/-- One observable side effect of the run.  `fileWrite` models an
`open(name, "w")` followed by writing exactly `content`, i.e. the previous
content of the file is discarded. -/
inductive Effect where
  | spawn (argv : List String)
  | fileRead (name : String)
  | fileWrite (name : String) (content : List String)
deriving DecidableEq

/-- Recognizes a spawn effect. -/
def Effect.isSpawn : Effect → Bool
  | .spawn _ => true
  | _ => false

/-- Recognizes a write to the persisted binding file. -/
def isEnvWrite : Effect → Bool
  | .fileWrite n _ => n = ENV_FILE
  | _ => false

/-- What `ResimExecutor.execute` hands back to the interpreter: either the
extracted address list (success path) or the literal `{}` returned both on
command failure and in manifest mode — an empty *dict*, not an empty list,
though nothing downstream distinguishes the two beyond `len`. -/
inductive ExecResult where
  | addrs (l : List String)
  | emptyDict
deriving DecidableEq

/-- The address sequence an `ExecResult` provides (only `len` and positional
indexing are applied to it by `populate_named_props`). -/
def ExecResult.toList : ExecResult → List String
  | .addrs l => l
  | .emptyDict => []

/-! ## Manifest templating (revup.py lines 151-172) -/

/-- One line of manifest rewriting: `for k, v in named_props.items():
line = line.replace("$" + k, v)` — every occurrence of every bound name's
placeholder is replaced, across all bound names. -/
def substAllLine (line : String) (named_props : PropsMap) : String :=
  named_props.foldl (fun acc p => pyReplace acc ("$" ++ p.1) p.2) line

/-- Embeds `ResimExecutor.do_run_manifest` as its effect trace: locate the
manifest file name in the raw command, read the file, rewrite every line with
`substAllLine`, and write the result to `<filename>.dat` — but only when at
least one line was read (the source guards on `len(updated_content) > 0`,
which equals `len(rtm_content) > 0` since the rewrite is one line to one
line); a missing/unreadable file leaves only the attempted read (the raised
error is caught and logged). -/
def do_run_manifest (w : World) (cmd : String) (named_props : PropsMap) : List Effect :=
  match findRtmS cmd with
  | some file_name =>
    match w.manifestFile file_name with
    | some rtm_content =>
      if 0 < rtm_content.length then
        [.fileRead file_name,
          .fileWrite (file_name ++ ".dat") (rtm_content.map fun line => substAllLine line named_props)]
      else
        [.fileRead file_name]
    | none => [.fileRead file_name]
  | none => []

/-- Embeds `ResimExecutor.execute`.  Manifest mode delegates to
`do_run_manifest` and returns `{}`.  Generic mode substitutes variables into
the command, tokenizes on spaces, prepends `resim`, spawns the subprocess,
and on success extracts addresses from stdout; a non-zero exit is caught and
`{}` is returned. -/
def execute (w : World) (cmd : String) (named_props : PropsMap) : ExecResult × List Effect :=
  if isRunManifestL cmd.data then
    (.emptyDict, do_run_manifest w cmd named_props)
  else
    match w.resimOutput (RESIM_COMMAND :: pySplitSpace (perform_variable_sub cmd named_props)) with
    | some output =>
      (.addrs (extract_output_addresses output),
        [.spawn (RESIM_COMMAND :: pySplitSpace (perform_variable_sub cmd named_props))])
    | none =>
      (.emptyDict, [.spawn (RESIM_COMMAND :: pySplitSpace (perform_variable_sub cmd named_props))])

/-! ## The directive interpreter (revup.py lines 63-107) -/

/-- Embeds `Revup.populate_named_props`: when the names spec is nonempty,
split it on single spaces; when the name count is at most the address count,
assign each name the positionally corresponding address into a fresh dict;
otherwise (and for an empty spec) produce the empty dict. -/
def populate_named_props (named_props : String) (addresses : List String) : PropsMap :=
  if 0 < named_props.length then
    let named_props_parts := pySplitSpace named_props
    if named_props_parts.length ≤ addresses.length then
      (named_props_parts.zip addresses).foldl (fun m p => dictUpdate m p.1 p.2) []
    else []
  else []

/-- The declared binding names of a names spec, as the code computes them
(`split(" ")` under the nonemptiness guard of `populate_named_props`). -/
def declNames (spec : String) : List String :=
  if 0 < spec.length then pySplitSpace spec else []

/-- A line the interpreter skips: exactly `"\n"`, or one of the two comment
markers `//` and `\\`. -/
def skipLine (line : String) : Bool :=
  line = "\n" || prefOf ['/', '/'] line.data || prefOf ['\\', '\\'] line.data

/-- The parse of one non-skipped directive line (revup.py lines 86-93):
`split("->")`, the first part normalized is the command, the second part (when
present) normalized is the binding-names spec.  Note the split is on *every*
occurrence of `->`, so the spec is only the segment between the first and
second delimiter. -/
def parseDirective (line : String) : String × Option String :=
  let command_and_args := pySplitArrow line
  (normalizeToken (command_and_args.headD ""), (command_and_args.get? 1).map normalizeToken)

/-- The declared names of a whole directive line (empty when no `->` part). -/
def directiveNames (line : String) : List String :=
  match (parseDirective line).2 with
  | some spec => declNames spec
  | none => []

/-- One iteration of the interpreter loop: skip blank/comment lines, else
parse, execute with the current map, and merge the positional bindings. -/
def processLine (w : World) (m : PropsMap) (line : String) : PropsMap × List Effect :=
  if skipLine line then (m, [])
  else
    let pd := parseDirective line
    let r := execute w pd.1 m
    match pd.2 with
    | some named_props => (dictMerge m (populate_named_props named_props r.1.toList), r.2)
    | none => (m, r.2)

/-- The interpreter loop over all lines, threading the binding map and
accumulating the effect trace. -/
def runLines (w : World) (m : PropsMap) : List String → PropsMap × List Effect
  | [] => (m, [])
  | line :: rest =>
    let s := processLine w m line
    let t := runLines w s.1 rest
    (t.1, s.2 ++ t.2)

/-- The serialized binding file content of `Revup.write_props_to_env`: one
`name=address` line per entry, in map order. -/
def envLines (m : PropsMap) : List String :=
  m.map fun p => p.1 ++ "=" ++ p.2 ++ "\n"

/-- Embeds `Revup.process_inputfile`: run every line starting from the empty
map, then write the final map to the env file (mode `"w"`, i.e. overwriting). -/
def process_inputfile (w : World) (lines : List String) : PropsMap × List Effect :=
  let r := runLines w [] lines
  (r.1, r.2 ++ [Effect.fileWrite ENV_FILE (envLines r.1)])

/-- Recognizes a file-write effect. -/
def Effect.isFileWrite : Effect → Bool
  | .fileWrite _ _ => true
  | _ => false

/-! ## Concrete environments used in instance checks -/

/-- Environment in which every `resim` invocation exits non-zero and no
manifest file is readable. -/
def wNone : World :=
  ⟨fun _ => none, fun _ => none⟩

/-- Environment with a readable but empty manifest `ab.rtm`. -/
def wEmptyManifest : World :=
  ⟨fun _ => none, fun f => if f = "ab.rtm" then some [] else none⟩

/-- Environment with a one-line manifest `ab.rtm` full of placeholders. -/
def wManifest : World :=
  ⟨fun _ => none, fun f => if f = "ab.rtm" then some ["$a $a $b\n"] else none⟩

/-- Environment in which every `resim` invocation prints one component
address line. -/
def wComponent : World :=
  ⟨fun _ => some ["component: ff"], fun _ => none⟩

/-! ## Lemmas about the dict model -/

theorem dictKeys_assignMap (m : PropsMap) (k v : String) :
    dictKeys (m.map fun p => if p.1 = k then (k, v) else p) = dictKeys m := by
  induction m with
  | nil => rfl
  | cons p m ih =>
    by_cases h : p.1 = k
    · simp only [dictKeys, List.map_cons] at ih ⊢
      simp [h, ih]
    · simp only [dictKeys, List.map_cons] at ih ⊢
      simp [h, ih]

theorem lookup_assignMap_self (m : PropsMap) (k v : String)
    (h : m.any (fun p => p.1 = k) = true) :
    dictLookup (m.map fun p => if p.1 = k then (k, v) else p) k = some v := by
  induction m with
  | nil => simp at h
  | cons p m ih =>
    by_cases hp : p.1 = k
    · simp only [List.map_cons, if_pos hp]
      simp [dictLookup]
    · simp only [List.any_cons, Bool.or_eq_true, decide_eq_true_eq] at h
      rcases h with h | h
      · exact absurd h hp
      · simp only [List.map_cons, if_neg hp]
        simp [dictLookup, hp, ih h]

theorem lookup_assignMap_ne (m : PropsMap) (k v q : String) (h : q ≠ k) :
    dictLookup (m.map fun p => if p.1 = k then (k, v) else p) q = dictLookup m q := by
  induction m with
  | nil => rfl
  | cons p m ih =>
    by_cases hp : p.1 = k
    · simp only [List.map_cons, if_pos hp]
      simp [dictLookup, hp, Ne.symm h, ih]
    · simp only [List.map_cons, if_neg hp]
      by_cases hq : p.1 = q
      · simp [dictLookup, hq]
      · simp [dictLookup, hq, ih]

theorem lookup_append_single_self (m : PropsMap) (k v : String)
    (h : m.any (fun p => p.1 = k) = false) :
    dictLookup (m ++ [(k, v)]) k = some v := by
  induction m with
  | nil => simp [dictLookup]
  | cons p m ih =>
    simp only [List.any_cons, Bool.or_eq_false_iff, decide_eq_false_iff_not] at h
    simp [dictLookup, h.1, ih (by simpa using h.2)]

theorem lookup_append_single_ne (m : PropsMap) (k v q : String) (h : q ≠ k) :
    dictLookup (m ++ [(k, v)]) q = dictLookup m q := by
  induction m with
  | nil => simp [dictLookup, Ne.symm h]
  | cons p m ih =>
    by_cases hq : p.1 = q
    · simp [dictLookup, hq]
    · simp [dictLookup, hq, ih]

theorem dictLookup_update_self (m : PropsMap) (k v : String) :
    dictLookup (dictUpdate m k v) k = some v := by
  unfold dictUpdate
  by_cases h : m.any (fun p => p.1 = k) = true
  · rw [if_pos h]
    exact lookup_assignMap_self m k v h
  · rw [if_neg h]
    exact lookup_append_single_self m k v (Bool.eq_false_iff.mpr h)

theorem dictLookup_update_ne (m : PropsMap) (k v q : String) (h : q ≠ k) :
    dictLookup (dictUpdate m k v) q = dictLookup m q := by
  unfold dictUpdate
  split
  · exact lookup_assignMap_ne m k v q h
  · exact lookup_append_single_ne m k v q h

theorem mem_dictKeys_update_intro (m : PropsMap) (k v q : String)
    (h : q ∈ dictKeys m) : q ∈ dictKeys (dictUpdate m k v) := by
  unfold dictUpdate
  split
  · rwa [dictKeys_assignMap]
  · simp only [dictKeys, List.map_append]
    exact List.mem_append_left _ h

theorem mem_dictKeys_update_elim (m : PropsMap) (k v q : String)
    (h : q ∈ dictKeys (dictUpdate m k v)) : q ∈ dictKeys m ∨ q = k := by
  unfold dictUpdate at h
  split at h
  · rw [dictKeys_assignMap] at h
    exact Or.inl h
  · simp only [dictKeys, List.map_append] at h
    rcases List.mem_append.mp h with h | h
    · exact Or.inl h
    · simp at h
      exact Or.inr h

theorem nodupKeys_dictUpdate (m : PropsMap) (k v : String)
    (h : nodupKeys m) : nodupKeys (dictUpdate m k v) := by
  unfold dictUpdate
  split
  · unfold nodupKeys
    rwa [dictKeys_assignMap]
  · rename_i hany
    unfold nodupKeys dictKeys
    rw [List.map_append]
    simp only [List.map_cons, List.map_nil]
    rw [List.nodup_append]
    refine ⟨h, List.nodup_singleton k, ?_⟩
    intro a ha hb
    simp only [List.mem_singleton] at hb
    subst hb
    simp only [List.any_eq_true, decide_eq_true_eq, not_exists, not_and] at hany
    rcases List.mem_map.mp ha with ⟨p, hp, hpk⟩
    exact hany p hp hpk

theorem lookup_foldlUpdate_notMem (ps : PropsMap) (m : PropsMap) (q : String)
    (h : q ∉ dictKeys ps) :
    dictLookup (ps.foldl (fun acc p => dictUpdate acc p.1 p.2) m) q = dictLookup m q := by
  induction ps generalizing m with
  | nil => rfl
  | cons p ps ih =>
    simp only [dictKeys, List.map_cons, List.mem_cons, not_or] at h
    rw [List.foldl_cons, ih _ (by simpa [dictKeys] using h.2)]
    exact dictLookup_update_ne m p.1 p.2 q h.1

theorem lookup_foldlUpdate_nodup (ps : PropsMap) (m : PropsMap) (q : String)
    (hnd : (ps.map Prod.fst).Nodup) :
    dictLookup (ps.foldl (fun acc p => dictUpdate acc p.1 p.2) m) q =
      match dictLookup ps q with
      | some v => some v
      | none => dictLookup m q := by
  induction ps generalizing m with
  | nil => rfl
  | cons p ps ih =>
    rw [List.foldl_cons]
    rcases List.nodup_cons.mp hnd with ⟨hp, hnd'⟩
    by_cases hq : p.1 = q
    · have hnotin : q ∉ dictKeys ps := by
        subst hq
        simpa [dictKeys] using hp
      rw [lookup_foldlUpdate_notMem ps _ q hnotin]
      rw [hq, dictLookup_update_self]
      simp [dictLookup, hq]
    · rw [ih _ hnd']
      cases h : dictLookup ps q with
      | some v => simp [dictLookup, hq, h]
      | none => simp [dictLookup, hq, h, dictLookup_update_ne m p.1 p.2 q (Ne.symm hq)]

theorem mem_keys_foldlUpdate_intro (ps : PropsMap) (m : PropsMap) (q : String)
    (h : q ∈ dictKeys m) :
    q ∈ dictKeys (ps.foldl (fun acc p => dictUpdate acc p.1 p.2) m) := by
  induction ps generalizing m with
  | nil => exact h
  | cons p ps ih =>
    rw [List.foldl_cons]
    exact ih _ (mem_dictKeys_update_intro m p.1 p.2 q h)

theorem mem_keys_foldlUpdate_elim (ps : PropsMap) (m : PropsMap) (q : String)
    (h : q ∈ dictKeys (ps.foldl (fun acc p => dictUpdate acc p.1 p.2) m)) :
    q ∈ dictKeys m ∨ q ∈ dictKeys ps := by
  induction ps generalizing m with
  | nil => exact Or.inl h
  | cons p ps ih =>
    rw [List.foldl_cons] at h
    rcases ih _ h with h | h
    · rcases mem_dictKeys_update_elim m p.1 p.2 q h with h | h
      · exact Or.inl h
      · exact Or.inr (by simp [dictKeys, h])
    · exact Or.inr (by simp [dictKeys]; exact Or.inr (by simpa [dictKeys] using h))

theorem nodupKeys_foldlUpdate (ps : PropsMap) (m : PropsMap)
    (h : nodupKeys m) :
    nodupKeys (ps.foldl (fun acc p => dictUpdate acc p.1 p.2) m) := by
  induction ps generalizing m with
  | nil => exact h
  | cons p ps ih =>
    rw [List.foldl_cons]
    exact ih _ (nodupKeys_dictUpdate m p.1 p.2 h)

theorem foldlUpdate_eq_append (ps : PropsMap) (acc : PropsMap)
    (hnd : (ps.map Prod.fst).Nodup)
    (hdisj : ∀ p ∈ ps, acc.any (fun r => r.1 = p.1) = false) :
    ps.foldl (fun m p => dictUpdate m p.1 p.2) acc = acc ++ ps := by
  induction ps generalizing acc with
  | nil => simp
  | cons p ps ih =>
    rcases List.nodup_cons.mp hnd with ⟨hp, hnd'⟩
    have hupd : dictUpdate acc p.1 p.2 = acc ++ [p] := by
      unfold dictUpdate
      rw [if_neg]
      exact fun hc => by simp [hdisj p (List.mem_cons_self p ps)] at hc
    rw [List.foldl_cons, hupd, ih (acc ++ [p]) hnd']
    · simp
    · intro r hr
      rw [List.any_append]
      simp only [Bool.or_eq_false_iff]
      constructor
      · exact hdisj r (List.mem_cons_of_mem p hr)
      · simp only [List.any_cons, List.any_nil, Bool.or_false, decide_eq_false_iff_not]
        exact fun hc => hp (hc ▸ List.mem_map_of_mem Prod.fst hr)

theorem mem_map_fst_zip_elim (a : List String) (b : List String) (q : String)
    (h : q ∈ (a.zip b).map Prod.fst) : q ∈ a := by
  induction a generalizing b with
  | nil => simp at h
  | cons x a ih =>
    cases b with
    | nil => simp at h
    | cons y b =>
      simp only [List.zip_cons_cons, List.map_cons, List.mem_cons] at h
      rcases h with h | h
      · exact h ▸ List.mem_cons_self x a
      · exact List.mem_cons_of_mem x (ih b h)

theorem dictLookup_zip_get (names addrs : List String) (i : Nat) (hnd : names.Nodup)
    (hi : i < names.length) (hle : names.length ≤ addrs.length) :
    dictLookup (names.zip addrs) (names.get ⟨i, hi⟩) =
      some (addrs.get ⟨i, Nat.lt_of_lt_of_le hi hle⟩) := by
  induction names generalizing addrs i with
  | nil => exact absurd hi (Nat.not_lt_zero i)
  | cons n ns ih =>
    cases addrs with
    | nil => exact absurd hle (by simp)
    | cons a as =>
      rcases List.nodup_cons.mp hnd with ⟨hn, hnd'⟩
      cases i with
      | zero => simp [dictLookup]
      | succ j =>
        have hj : j < ns.length := Nat.lt_of_succ_lt_succ hi
        have hle' : ns.length ≤ as.length := Nat.le_of_succ_le_succ hle
        have hmem : ns.get ⟨j, hj⟩ ∈ ns := List.get_mem ns j hj
        have hne : ¬ n = ns.get ⟨j, hj⟩ := fun hc => hn (hc ▸ hmem)
        simp only [List.zip_cons_cons, List.get_cons_succ]
        simp only [dictLookup]
        rw [if_neg hne]
        exact ih as j hnd' hj hle'

/-! ## Lemmas about populate_named_props -/

theorem splitSpace_length_pos (l : List Char) : 0 < (splitSpace l).length := by
  cases l with
  | nil => simp [splitSpace]
  | cons c cs =>
    unfold splitSpace
    by_cases h : c = ' '
    · simp [h]
    · rw [if_neg h]
      cases hs : splitSpace cs <;> simp

theorem pySplitSpace_length_pos (s : String) : 0 < (pySplitSpace s).length := by
  simpa [pySplitSpace] using splitSpace_length_pos s.data

theorem populate_eq_zip (spec : String) (addrs : List String)
    (hle : (declNames spec).length ≤ addrs.length) :
    populate_named_props spec addrs =
      ((declNames spec).zip addrs).foldl (fun m p => dictUpdate m p.1 p.2) [] := by
  by_cases h : 0 < spec.length
  · unfold declNames at hle ⊢
    rw [if_pos h] at hle ⊢
    unfold populate_named_props
    rw [if_pos h]
    simp only []
    rw [if_pos hle]
  · unfold declNames at hle ⊢
    rw [if_neg h] at hle ⊢
    unfold populate_named_props
    rw [if_neg h]
    rfl

theorem populate_gt (spec : String) (addrs : List String)
    (hgt : addrs.length < (declNames spec).length) :
    populate_named_props spec addrs = [] := by
  by_cases h : 0 < spec.length
  · unfold declNames at hgt
    rw [if_pos h] at hgt
    unfold populate_named_props
    rw [if_pos h]
    simp only []
    rw [if_neg (Nat.not_le_of_lt hgt)]
  · unfold populate_named_props
    rw [if_neg h]

theorem populate_empty_addrs (spec : String) :
    populate_named_props spec [] = [] := by
  by_cases h : 0 < spec.length
  · unfold populate_named_props
    rw [if_pos h]
    simp only []
    rw [if_neg]
    simp only [List.length_nil, Nat.le_zero]
    have := pySplitSpace_length_pos spec
    omega
  · unfold populate_named_props
    rw [if_neg h]

theorem mem_keys_populate_elim (spec : String) (addrs : List String) (q : String)
    (h : q ∈ dictKeys (populate_named_props spec addrs)) : q ∈ declNames spec := by
  rcases Nat.lt_or_ge addrs.length (declNames spec).length with hlt | hge
  · rw [populate_gt spec addrs hlt] at h
    simp [dictKeys] at h
  · rw [populate_eq_zip spec addrs hge] at h
    rcases mem_keys_foldlUpdate_elim _ _ _ h with h | h
    · simp [dictKeys] at h
    · exact mem_map_fst_zip_elim _ addrs q h

theorem lookup_merge_populate_get (m : PropsMap) (spec : String) (addrs : List String)
    (hle : (declNames spec).length ≤ addrs.length) (hnd : (declNames spec).Nodup)
    (i : Nat) (hi : i < (declNames spec).length) (hj : i < addrs.length) :
    dictLookup (dictMerge m (populate_named_props spec addrs))
      ((declNames spec).get ⟨i, hi⟩) = some (addrs.get ⟨i, hj⟩) := by
  rw [populate_eq_zip spec addrs hle]
  have hkeys : ((declNames spec).zip addrs).map Prod.fst = declNames spec :=
    List.map_fst_zip _ _ hle
  have hznd : (((declNames spec).zip addrs).map Prod.fst).Nodup := by
    rw [hkeys]
    exact hnd
  have hself : ((declNames spec).zip addrs).foldl (fun m p => dictUpdate m p.1 p.2) [] =
      (declNames spec).zip addrs := by
    have h := foldlUpdate_eq_append ((declNames spec).zip addrs) [] hznd
      (fun p _ => rfl)
    simpa using h
  rw [hself]
  unfold dictMerge
  rw [lookup_foldlUpdate_nodup _ m _ hznd]
  rw [dictLookup_zip_get (declNames spec) addrs i hnd hi hle]

/-! ## Lemmas about the interpreter step and loop -/

theorem processLine_skip (w : World) (m : PropsMap) (line : String)
    (h : skipLine line = true) : processLine w m line = (m, []) := by
  unfold processLine
  rw [if_pos h]

theorem processLine_fst_mem_keys (w : World) (m : PropsMap) (line : String) (q : String)
    (h : q ∈ dictKeys m) : q ∈ dictKeys (processLine w m line).1 := by
  unfold processLine
  by_cases hs : skipLine line = true
  · rw [if_pos hs]
    exact h
  · rw [if_neg hs]
    cases hpd : (parseDirective line).2 with
    | none => simpa [hpd] using h
    | some spec =>
      simp only [hpd]
      exact mem_keys_foldlUpdate_intro _ m q h

theorem processLine_fst_nodup (w : World) (m : PropsMap) (line : String)
    (h : nodupKeys m) : nodupKeys (processLine w m line).1 := by
  unfold processLine
  by_cases hs : skipLine line = true
  · rw [if_pos hs]
    exact h
  · rw [if_neg hs]
    cases hpd : (parseDirective line).2 with
    | none => simpa [hpd] using h
    | some spec =>
      simp only [hpd]
      exact nodupKeys_foldlUpdate _ m h

theorem processLine_fst_lookup_notDecl (w : World) (m : PropsMap) (line : String) (q : String)
    (h : q ∉ directiveNames line) :
    dictLookup (processLine w m line).1 q = dictLookup m q := by
  unfold processLine
  by_cases hs : skipLine line = true
  · rw [if_pos hs]
  · rw [if_neg hs]
    cases hpd : (parseDirective line).2 with
    | none => simp [hpd]
    | some spec =>
      simp only [hpd]
      have hq : q ∉ dictKeys (populate_named_props spec
          ((execute w (parseDirective line).1 m).1.toList)) := by
        intro hc
        apply h
        unfold directiveNames
        rw [hpd]
        exact mem_keys_populate_elim _ _ _ hc
      exact lookup_foldlUpdate_notMem _ m q hq

theorem runLines_cons (w : World) (m : PropsMap) (line : String) (rest : List String) :
    runLines w m (line :: rest) =
      ((runLines w (processLine w m line).1 rest).1,
        (processLine w m line).2 ++ (runLines w (processLine w m line).1 rest).2) := by
  rfl

theorem runLines_append (w : World) (m : PropsMap) (l1 l2 : List String) :
    runLines w m (l1 ++ l2) =
      ((runLines w (runLines w m l1).1 l2).1,
        (runLines w m l1).2 ++ (runLines w (runLines w m l1).1 l2).2) := by
  induction l1 generalizing m with
  | nil => simp [runLines]
  | cons line l1 ih =>
    simp only [List.cons_append, runLines_cons, ih]
    simp [List.append_assoc]

theorem runLines_fst_mem_keys (w : World) (m : PropsMap) (lines : List String) (q : String)
    (h : q ∈ dictKeys m) : q ∈ dictKeys (runLines w m lines).1 := by
  induction lines generalizing m with
  | nil => exact h
  | cons line lines ih =>
    unfold runLines
    exact ih _ (processLine_fst_mem_keys w m line q h)

theorem runLines_fst_nodup (w : World) (m : PropsMap) (lines : List String)
    (h : nodupKeys m) : nodupKeys (runLines w m lines).1 := by
  induction lines generalizing m with
  | nil => exact h
  | cons line lines ih =>
    unfold runLines
    exact ih _ (processLine_fst_nodup w m line h)

theorem runLines_all_skip (w : World) (m : PropsMap) (lines : List String)
    (h : lines.all skipLine = true) : runLines w m lines = (m, []) := by
  induction lines with
  | nil => rfl
  | cons line lines ih =>
    simp only [List.all_cons, Bool.and_eq_true] at h
    rw [runLines_cons, processLine_skip w m line h.1]
    simp [ih h.2]

/-! ## Lemmas about the manifest-file regex -/

theorem rtmExtOk_length (ci : Bool) (ext : List Char) (h : rtmExtOk ci ext) :
    ext.length = 4 := by
  cases ci with
  | true =>
    have h' : ext.map Char.toLower = ['.', 'r', 't', 'm'] := h
    have := congrArg List.length h'
    simpa using this
  | false =>
    have h' : ext = ['.', 'r', 't', 'm'] := h
    rw [h']
    rfl

theorem rtmExtOk_ci (ext : List Char) (h : rtmExtOk false ext) : rtmExtOk true ext := by
  have h' : ext = ['.', 'r', 't', 'm'] := h
  show ext.map Char.toLower = ['.', 'r', 't', 'm']
  rw [h']
  decide

theorem rtmAt_some_length (ci : Bool) (l f : List Char)
    (h : rtmAt ci l = some f) : 5 ≤ f.length := by
  unfold rtmAt at h
  split at h
  case isTrue hc =>
    injection h with h'
    rcases hc with ⟨hrun, hext⟩
    have h1 : 1 ≤ (l.takeWhile wordChar).length := by
      cases hr : l.takeWhile wordChar with
      | nil => exact absurd hr hrun
      | cons x xs => simp [hr]
    have h4 := rtmExtOk_length ci _ hext
    rw [← h', List.length_append]
    omega
  case isFalse => exact absurd h (by simp)

theorem findRtm_some_length (ci : Bool) (l f : List Char)
    (h : findRtm ci l = some f) : 5 ≤ f.length := by
  induction l with
  | nil => simp [findRtm] at h
  | cons c cs ih =>
    unfold findRtm at h
    cases hr : rtmAt ci (c :: cs) with
    | some g =>
      rw [hr] at h
      simp only [Option.orElse] at h
      injection h with h'
      exact h' ▸ rtmAt_some_length ci (c :: cs) g hr
    | none =>
      rw [hr] at h
      simp only [Option.orElse] at h
      exact ih h

theorem rtmAt_ci_of_cs (l f : List Char)
    (h : rtmAt false l = some f) : rtmAt true l = some f := by
  unfold rtmAt at h ⊢
  split at h
  case isTrue hc =>
    rw [if_pos ⟨hc.1, rtmExtOk_ci _ hc.2⟩]
    exact h
  case isFalse => exact absurd h (by simp)

theorem findRtm_cons_isSome (ci : Bool) (c : Char) (cs : List Char)
    (h : (findRtm ci cs).isSome = true) : (findRtm ci (c :: cs)).isSome = true := by
  unfold findRtm
  cases hr : rtmAt ci (c :: cs) with
  | some g => simp [Option.orElse, hr]
  | none => simpa [Option.orElse, hr] using h

theorem rtmSearchNoNl_find (cs : List Char)
    (h : rtmSearchNoNl cs = true) : (findRtm true cs).isSome = true := by
  induction cs with
  | nil => simp [rtmSearchNoNl] at h
  | cons c cs ih =>
    unfold rtmSearchNoNl at h
    rcases Bool.or_eq_true_iff.mp h with h1 | h2
    · rcases Option.isSome_iff_exists.mp h1 with ⟨f, hf⟩
      unfold findRtm
      rw [rtmAt_ci_of_cs _ f hf]
      simp [Option.orElse]
    · rcases Bool.and_eq_true_iff.mp h2 with ⟨_, hs⟩
      exact findRtm_cons_isSome true c cs (ih hs)

theorem gapThenRtm_find (l : List Char)
    (h : gapThenRtm l = true) : (findRtm true l).isSome = true := by
  cases l with
  | nil => simp [gapThenRtm] at h
  | cons c cs =>
    unfold gapThenRtm at h
    rcases Bool.and_eq_true_iff.mp h with ⟨_, hs⟩
    exact findRtm_cons_isSome true c cs (rtmSearchNoNl_find cs hs)

theorem findRtm_drop_isSome (ci : Bool) (l : List Char) (n : Nat)
    (h : (findRtm ci (l.drop n)).isSome = true) : (findRtm ci l).isSome = true := by
  induction l generalizing n with
  | nil => simpa using h
  | cons c cs ih =>
    cases n with
    | zero => exact h
    | succ n => exact findRtm_cons_isSome ci c cs (ih n h)

theorem isRunManifest_find (l : List Char)
    (h : isRunManifestL l = true) : (findRtm true l).isSome = true := by
  induction l with
  | nil => simp [isRunManifestL] at h
  | cons c cs ih =>
    unfold isRunManifestL at h
    rcases Bool.or_eq_true_iff.mp h with h1 | h2
    · rcases Bool.and_eq_true_iff.mp h1 with ⟨_, hg⟩
      exact findRtm_cons_isSome true c cs (findRtm_drop_isSome true cs 3 (gapThenRtm_find _ hg))
    · exact findRtm_cons_isSome true c cs (ih h2)

/-! ## String append helpers -/

theorem strData_append (s t : String) : (s ++ t).data = s.data ++ t.data := by
  cases s
  cases t
  rfl

theorem strLength_append (s t : String) : (s ++ t).length = s.length + t.length := by
  cases s with
  | mk a =>
    cases t with
    | mk b => exact List.length_append a b

/-! ## No effect of a directive writes the env file -/

theorem do_run_manifest_effects_no_env (w : World) (cmd : String) (props : PropsMap) (e : Effect)
    (he : e ∈ do_run_manifest w cmd props) : isEnvWrite e = false := by
  unfold do_run_manifest at he
  cases hf : findRtmS cmd with
  | none =>
    rw [hf] at he
    simp at he
  | some fname =>
    rw [hf] at he
    dsimp only at he
    have hlen : 5 ≤ fname.length := by
      unfold findRtmS at hf
      cases hg : findRtm true cmd.data with
      | none =>
        rw [hg] at hf
        simp at hf
      | some g =>
        rw [hg] at hf
        simp only [Option.map] at hf
        injection hf with hf'
        have hg5 := findRtm_some_length true cmd.data g hg
        rw [← hf']
        exact hg5
    have hne : ∀ c, isEnvWrite (Effect.fileWrite (fname ++ ".dat") c) = false := by
      intro c
      simp only [isEnvWrite, decide_eq_false_iff_not]
      intro hc
      have hl := congrArg String.length hc
      rw [strLength_append] at hl
      have h4 : (".dat" : String).length = 4 := rfl
      have h5 : ENV_FILE.length = 4 := rfl
      omega
    cases hm : w.manifestFile fname with
    | none =>
      rw [hm] at he
      simp at he
      rw [he]
      rfl
    | some content =>
      rw [hm] at he
      dsimp only at he
      by_cases h0 : 0 < content.length
      · rw [if_pos h0] at he
        simp at he
        rcases he with he | he
        · rw [he]
          rfl
        · rw [he]
          exact hne _
      · rw [if_neg h0] at he
        simp at he
        rw [he]
        rfl

theorem do_run_manifest_no_spawn (w : World) (cmd : String) (props : PropsMap) (e : Effect)
    (he : e ∈ do_run_manifest w cmd props) : e.isSpawn = false := by
  unfold do_run_manifest at he
  cases hf : findRtmS cmd with
  | none =>
    rw [hf] at he
    simp at he
  | some fname =>
    rw [hf] at he
    dsimp only at he
    cases hm : w.manifestFile fname with
    | none =>
      rw [hm] at he
      simp at he
      rw [he]
      rfl
    | some content =>
      rw [hm] at he
      dsimp only at he
      by_cases h0 : 0 < content.length
      · rw [if_pos h0] at he
        simp at he
        rcases he with he | he
        · rw [he]
          rfl
        · rw [he]
          rfl
      · rw [if_neg h0] at he
        simp at he
        rw [he]
        rfl

theorem execute_effects_no_env (w : World) (cmd : String) (props : PropsMap) (e : Effect)
    (he : e ∈ (execute w cmd props).2) : isEnvWrite e = false := by
  unfold execute at he
  split at he
  · exact do_run_manifest_effects_no_env w cmd props e he
  · cases hr : w.resimOutput (RESIM_COMMAND :: pySplitSpace (perform_variable_sub cmd props)) with
    | some out =>
      rw [hr] at he
      simp at he
      rw [he]
      rfl
    | none =>
      rw [hr] at he
      simp at he
      rw [he]
      rfl

theorem processLine_effects_no_env (w : World) (m : PropsMap) (line : String) (e : Effect)
    (he : e ∈ (processLine w m line).2) : isEnvWrite e = false := by
  unfold processLine at he
  by_cases hs : skipLine line = true
  · rw [if_pos hs] at he
    simp at he
  · rw [if_neg hs] at he
    cases hpd : (parseDirective line).2 with
    | none =>
      simp only [hpd] at he
      exact execute_effects_no_env w _ m e he
    | some spec =>
      simp only [hpd] at he
      exact execute_effects_no_env w _ m e he

theorem runLines_effects_no_env (w : World) (m : PropsMap) (lines : List String) (e : Effect)
    (he : e ∈ (runLines w m lines).2) : isEnvWrite e = false := by
  induction lines generalizing m with
  | nil => simp [runLines] at he
  | cons line rest ih =>
    rw [runLines_cons] at he
    simp only [List.mem_append] at he
    rcases he with he | he
    · exact processLine_effects_no_env w m line e he
    · exact ih _ he

/-! ## Lemmas about address extraction -/

theorem extract_foldl_acc (lines : List String) (acc : List String) :
    lines.foldl (fun addresses line => addresses ++ lineHits line) acc =
      acc ++ lines.foldl (fun addresses line => addresses ++ lineHits line) [] := by
  induction lines generalizing acc with
  | nil => simp
  | cons l ls ih =>
    rw [List.foldl_cons, List.foldl_cons, ih (acc ++ lineHits l), ih (List.nil ++ lineHits l)]
    simp [List.append_assoc]

theorem extract_cons (line : String) (rest : List String) :
    extract_output_addresses (line :: rest) = lineHits line ++ extract_output_addresses rest := by
  unfold extract_output_addresses
  rw [List.foldl_cons, extract_foldl_acc]
  simp

/-! ## Lemmas about the arrow split -/

theorem splitArrow_cons_arrow (b : List Char) :
    splitArrow ('-' :: '>' :: b) = [] :: splitArrow b := by
  rw [splitArrow]
  rw [if_pos ⟨rfl, rfl⟩]

theorem splitArrow_cons2 (c1 c2 : Char) (cs : List Char) (hc : ¬ (c1 = '-' ∧ c2 = '>')) :
    splitArrow (c1 :: c2 :: cs) =
      match splitArrow (c2 :: cs) with
      | [] => [[c1]]
      | s :: ss => (c1 :: s) :: ss := by
  conv_lhs => rw [splitArrow]
  rw [if_neg hc]

theorem splitArrow_append_arrow (a b : List Char) (h : hasArrowL a = false) :
    splitArrow (a ++ '-' :: '>' :: b) = a :: splitArrow b := by
  induction a with
  | nil =>
    simp only [List.nil_append]
    exact splitArrow_cons_arrow b
  | cons c a ih =>
    cases a with
    | nil =>
      have hc : ¬ (c = '-' ∧ '-' = '>') := fun hcc => absurd hcc.2 (by decide)
      simp only [List.cons_append, List.nil_append]
      rw [splitArrow_cons2 c '-' ('>' :: b) hc, splitArrow_cons_arrow]
    | cons c2 a' =>
      simp only [hasArrowL, Bool.or_eq_false_iff] at h
      obtain ⟨h1, h2⟩ := h
      have hc : ¬ (c = '-' ∧ c2 = '>') := by
        intro hcc
        simp [hcc.1, hcc.2] at h1
      simp only [List.cons_append]
      rw [splitArrow_cons2 c c2 _ hc]
      have ih' := ih h2
      simp only [List.cons_append] at ih'
      rw [ih']

theorem splitArrow_no_arrow (l : List Char) (h : hasArrowL l = false) :
    splitArrow l = [l] := by
  induction l with
  | nil => rfl
  | cons c a ih =>
    cases a with
    | nil => rfl
    | cons c2 a' =>
      simp only [hasArrowL, Bool.or_eq_false_iff] at h
      obtain ⟨h1, h2⟩ := h
      have hc : ¬ (c = '-' ∧ c2 = '>') := by
        intro hcc
        simp [hcc.1, hcc.2] at h1
      rw [splitArrow_cons2 c c2 a' hc, ih h2]

/-! ## Claim C1 -/

/-- Claim C1: for a directive whose declared name count is at most the length
of the returned address list, the interpreter zips names to addresses
positionally and merges the result into the binding map, overwriting entries
of the same name and leaving all other names' bindings untouched; when the
declared name count strictly exceeds the address count, the map update is
empty and the binding map is unchanged. -/
theorem claim1_positional_binding (m : PropsMap) (spec : String) (addrs : List String) :
    ((declNames spec).length ≤ addrs.length →
      ((declNames spec).Nodup →
        ∀ (i : Nat) (hi : i < (declNames spec).length) (hj : i < addrs.length),
          dictLookup (dictMerge m (populate_named_props spec addrs))
              ((declNames spec).get ⟨i, hi⟩) =
            some (addrs.get ⟨i, hj⟩)) ∧
      (∀ q, q ∉ declNames spec →
        dictLookup (dictMerge m (populate_named_props spec addrs)) q = dictLookup m q)) ∧
    (addrs.length < (declNames spec).length →
      dictMerge m (populate_named_props spec addrs) = m) := by
  constructor
  · intro hle
    constructor
    · intro hnd i hi hj
      exact lookup_merge_populate_get m spec addrs hle hnd i hi hj
    · intro q hq
      unfold dictMerge
      apply lookup_foldlUpdate_notMem
      intro hc
      exact hq (mem_keys_populate_elim spec addrs q hc)
  · intro hgt
    rw [populate_gt spec addrs hgt]
    rfl

/-- Instance check for `claim1_positional_binding` at concrete inputs. -/
theorem claim1_positional_binding_witness :
    dictLookup (dictMerge [("x", "0")] (populate_named_props "a b" ["1", "2"])) "b" = some "2" ∧
    dictLookup (dictMerge [("x", "0")] (populate_named_props "a b" ["1", "2"])) "x" = some "0" ∧
    dictMerge [("x", "0")] (populate_named_props "a b c" ["1", "2"]) = [("x", "0")] := by
  refine ⟨?_, ?_, ?_⟩
  · exact ((claim1_positional_binding [("x", "0")] "a b" ["1", "2"]).1
      (by decide)).1 (by decide) 1 (by decide) (by decide)
  · exact ((claim1_positional_binding [("x", "0")] "a b" ["1", "2"]).1
      (by decide)).2 "x" (by decide)
  · exact (claim1_positional_binding [("x", "0")] "a b c" ["1", "2"]).2 (by decide)

/-! ## Claim C2 -/

/-- Claim C2 counterexample: the claim says the substitution engine "replaces
a single placeholder occurrence", but Python's `str.replace` rewrites every
occurrence of the first matching name's placeholder: on `"$a $a"` with
`{a: "1"}` the code yields `"1 1"`, not the single-occurrence result
`"1 $a"`. -/
theorem claim2_single_occurrence_counterexample :
    perform_variable_sub "$a $a" [("a", "1")] = "1 1" ∧
    replaceFirstOcc "$a $a" "$a" "1" = "1 $a" ∧
    perform_variable_sub "$a $a" [("a", "1")] ≠ replaceFirstOcc "$a $a" "$a" "1" := by
  refine ⟨by decide, by decide, by decide⟩

/-- Claim C2 (amended): the engine scans bound names in map order and, for
the first bound name whose placeholder occurs in the text, replaces every
occurrence of that one name's placeholder and returns immediately, checking
no further names; if no bound name's placeholder occurs the text is returned
unchanged. -/
theorem claim2_first_name_all_occurrences :
    (∀ (txt : String) (ps : PropsMap),
      (∀ p ∈ ps, containsSub txt ("$" ++ p.1) = false) →
      perform_variable_sub txt ps = txt) ∧
    (∀ (txt : String) (ps1 : PropsMap) (k v : String) (ps2 : PropsMap),
      (∀ p ∈ ps1, containsSub txt ("$" ++ p.1) = false) →
      containsSub txt ("$" ++ k) = true →
      perform_variable_sub txt (ps1 ++ (k, v) :: ps2) = pyReplace txt ("$" ++ k) v) := by
  constructor
  · intro txt ps
    induction ps with
    | nil => intro _; rfl
    | cons p ps ih =>
      intro h
      obtain ⟨k1, v1⟩ := p
      have h1 : containsSub txt ("$" ++ k1) = false := h (k1, v1) (List.mem_cons_self _ _)
      rw [perform_variable_sub, if_neg (by simp [h1])]
      exact ih fun q hq => h q (List.mem_cons_of_mem _ hq)
  · intro txt ps1 k v ps2
    induction ps1 with
    | nil =>
      intro _ hk
      simp only [List.nil_append]
      rw [perform_variable_sub, if_pos hk]
    | cons p ps1 ih =>
      intro h hk
      obtain ⟨k1, v1⟩ := p
      have h1 : containsSub txt ("$" ++ k1) = false := h (k1, v1) (List.mem_cons_self _ _)
      simp only [List.cons_append]
      rw [perform_variable_sub, if_neg (by simp [h1])]
      exact ih (fun q hq => h q (List.mem_cons_of_mem _ hq)) hk

/-- Instance check for `claim2_first_name_all_occurrences` at the spec's own
example: `"$a $b"` with map order a-then-b yields `"1 $b"`. -/
theorem claim2_first_name_all_occurrences_witness :
    perform_variable_sub "$a $b" [("a", "1"), ("b", "2")] = pyReplace "$a $b" "$a" "1" ∧
    pyReplace "$a $b" "$a" "1" = "1 $b" := by
  constructor
  · exact claim2_first_name_all_occurrences.2 "$a $b" [] "a" "1" [("b", "2")]
      (fun p hp => absurd hp (List.not_mem_nil p)) (by decide)
  · decide

/-! ## Claim C3 -/

/-- Claim C3 counterexample: the claim says the line is split on the *first*
occurrence of `->` with the entire remainder forming the binding-names spec,
but the code splits on every occurrence and keeps only `parts[1]`: on
`"cmd -> a -> b\n"` the names spec is `"a"`, not `"a -> b"`. -/
theorem claim3_first_split_counterexample :
    (parseDirective "cmd -> a -> b\n").2 = some "a" ∧
    (some "a" : Option String) ≠ some "a -> b" := by
  refine ⟨by decide, by decide⟩

/-- Claim C3 (amended): the command is the text before the first `->`
(stripped, newlines removed), and the binding-names spec is only the segment
between the first and the second `->` (stripped identically); any text after
a second delimiter is discarded. -/
theorem claim3_arrow_split_segments (a mid suf : String)
    (ha : hasArrow a = false) (hm : hasArrow mid = false) :
    parseDirective (a ++ "->" ++ mid) = (normalizeToken a, some (normalizeToken mid)) ∧
    parseDirective (a ++ "->" ++ mid ++ "->" ++ suf) =
      (normalizeToken a, some (normalizeToken mid)) := by
  have hdata1 : (a ++ "->" ++ mid).data = a.data ++ '-' :: '>' :: mid.data := by
    rw [strData_append, strData_append]
    simp [List.append_assoc]
  have hdata2 : (a ++ "->" ++ mid ++ "->" ++ suf).data =
      a.data ++ '-' :: '>' :: (mid.data ++ '-' :: '>' :: suf.data) := by
    rw [strData_append, strData_append, strData_append, strData_append]
    simp [List.append_assoc]
  constructor
  · unfold parseDirective pySplitArrow
    rw [hdata1, splitArrow_append_arrow _ _ ha, splitArrow_no_arrow _ hm]
    rfl
  · unfold parseDirective pySplitArrow
    rw [hdata2, splitArrow_append_arrow _ _ ha, splitArrow_append_arrow _ _ hm]
    rfl

/-- Instance check for `claim3_arrow_split_segments` on a two-delimiter
line. -/
theorem claim3_arrow_split_segments_witness :
    parseDirective ("cmd " ++ "->" ++ " a " ++ "->" ++ " b\n") =
      (normalizeToken "cmd ", some (normalizeToken " a ")) := by
  exact (claim3_arrow_split_segments "cmd " " a " " b\n" (by decide) (by decide)).2

/-! ## Claim C4 -/

/-- Claim C4: when a generic-mode directive's `resim` invocation exits
non-zero, the invoker returns the empty falsy mapping (`{}`), the interpreter
records no bindings for that directive, and the run continues with the next
directive (the embedding is total, so no exception can abort it; the error
stream is only logged, which is not modelled as an observable effect). -/
theorem claim4_generic_failure_soft (w : World) (m : PropsMap) (line : String)
    (rest : List String)
    (hskip : skipLine line = false)
    (hmode : isRunManifestL (parseDirective line).1.data = false)
    (hfail : w.resimOutput (RESIM_COMMAND ::
        pySplitSpace (perform_variable_sub (parseDirective line).1 m)) = none) :
    execute w (parseDirective line).1 m =
      (ExecResult.emptyDict, [Effect.spawn (RESIM_COMMAND ::
        pySplitSpace (perform_variable_sub (parseDirective line).1 m))]) ∧
    (processLine w m line).1 = m ∧
    (runLines w m (line :: rest)).1 = (runLines w m rest).1 := by
  have hexec : execute w (parseDirective line).1 m =
      (ExecResult.emptyDict, [Effect.spawn (RESIM_COMMAND ::
        pySplitSpace (perform_variable_sub (parseDirective line).1 m))]) := by
    unfold execute
    rw [if_neg (by simp [hmode]), hfail]
  have hstep : (processLine w m line).1 = m := by
    unfold processLine
    rw [if_neg (by simp [hskip])]
    cases hpd : (parseDirective line).2 with
    | none => simp [hpd]
    | some spec =>
      simp only [hpd]
      show dictMerge m (populate_named_props spec
        (execute w (parseDirective line).1 m).1.toList) = m
      rw [hexec]
      show dictMerge m (populate_named_props spec []) = m
      rw [populate_empty_addrs]
      rfl
  refine ⟨hexec, hstep, ?_⟩
  rw [runLines_cons]
  show (runLines w (processLine w m line).1 rest).1 = _
  rw [hstep]

/-- Instance check for `claim4_generic_failure_soft`: a failing directive
leaves the binding map untouched and the rest of the run proceeds. -/
theorem claim4_generic_failure_soft_witness :
    (processLine wNone [("x", "0")] "foo -> a\n").1 = [("x", "0")] ∧
    (runLines wNone [("x", "0")] ["foo -> a\n", "//c\n"]).1 =
      (runLines wNone [("x", "0")] ["//c\n"]).1 := by
  have h := claim4_generic_failure_soft wNone [("x", "0")] "foo -> a\n" ["//c\n"]
    (by decide) (by decide) rfl
  exact ⟨h.2.1, h.2.2⟩

/-! ## Claim C5 -/

/-- Claim C5 counterexample: the claim asserts that every readable manifest
produces a `<filename>.dat` write, but for a readable *empty* manifest the
guard `len(updated_content) > 0` fails and no output file is written at
all. -/
theorem claim5_empty_manifest_counterexample :
    wEmptyManifest.manifestFile "ab.rtm" = some [] ∧
    execute wEmptyManifest "run the ab.rtm" [] =
      (ExecResult.emptyDict, [Effect.fileRead "ab.rtm"]) ∧
    ((execute wEmptyManifest "run the ab.rtm" []).2.all
      fun e => ! e.isFileWrite) = true := by
  refine ⟨by decide, by decide, by decide⟩

/-- Claim C5 (amended): for every readable manifest with at least one line,
every line is rewritten exhaustively — every occurrence of every bound name's
placeholder is replaced — and the result is written to `<filename>.dat`,
leaving unmatched placeholders verbatim; an empty manifest produces no output
file. -/
theorem claim5_manifest_exhaustive_rewrite (w : World) (props : PropsMap)
    (cmd fname : String) (content : List String)
    (hrun : isRunManifestL cmd.data = true)
    (hfind : findRtmS cmd = some fname)
    (hfile : w.manifestFile fname = some content)
    (hne : content ≠ []) :
    execute w cmd props =
      (ExecResult.emptyDict, [Effect.fileRead fname,
        Effect.fileWrite (fname ++ ".dat")
          (content.map fun line => substAllLine line props)]) ∧
    substAllLine "$a $a $b" [("a", "1"), ("b", "2")] = "1 1 2" ∧
    substAllLine "$a $c" [("a", "1"), ("b", "2")] = "1 $c" := by
  refine ⟨?_, by decide, by decide⟩
  unfold execute
  rw [if_pos hrun]
  unfold do_run_manifest
  rw [hfind]
  dsimp only
  rw [hfile]
  dsimp only
  rw [if_pos (List.length_pos.mpr hne)]

/-- Instance check for `claim5_manifest_exhaustive_rewrite`: the manifest
line `"$a $a $b"` with bindings a-1, b-2 is written as `"1 1 2"`. -/
theorem claim5_manifest_exhaustive_rewrite_witness :
    execute wManifest "run the ab.rtm" [("a", "1"), ("b", "2")] =
      (ExecResult.emptyDict, [Effect.fileRead "ab.rtm",
        Effect.fileWrite "ab.rtm.dat" ["1 1 2\n"]]) := by
  have h := (claim5_manifest_exhaustive_rewrite wManifest [("a", "1"), ("b", "2")]
    "run the ab.rtm" "ab.rtm" ["$a $a $b\n"] (by decide) (by decide) (by decide)
    (by decide)).1
  exact h

/-! ## Claim C6 -/

/-- Claim C6: the address matcher processes output lines in order; on each
line it tries the five patterns in declaration order (component, resource,
package, account-component-address, public-key), case-insensitively,
appending every captured hex token; a line matching no pattern contributes
nothing. -/
theorem claim6_pattern_priority_order (line : String) (rest : List String) :
    extract_output_addresses (line :: rest) =
      lineHits line ++ extract_output_addresses rest ∧
    lineHits line = address_extract_labels.filterMap (fun lab => searchLabelHex lab line) ∧
    ((address_extract_labels.all fun lab => (searchLabelHex lab line).isNone) = true →
      extract_output_addresses (line :: rest) = extract_output_addresses rest) ∧
    extract_output_addresses ["component: 1a2b"] = ["1a2b"] ∧
    extract_output_addresses ["Component: AB"] = ["AB"] ∧
    extract_output_addresses ["package: ff component: aa"] = ["aa", "ff"] ∧
    extract_output_addresses ["hello world"] = [] := by
  refine ⟨extract_cons line rest, rfl, ?_, by decide, by decide, by decide, by decide⟩
  intro h
  rw [extract_cons]
  have hnil : lineHits line = [] := by
    unfold lineHits
    rw [List.filterMap_eq_nil_iff]
    intro lab hlab
    have hl := List.all_eq_true.mp h lab hlab
    exact Option.isNone_iff_eq_none.mp hl
  rw [hnil, List.nil_append]

/-- Instance check for `claim6_pattern_priority_order`: a line matching no
pattern contributes nothing. -/
theorem claim6_pattern_priority_order_witness :
    extract_output_addresses ["hello world", "component: 1a2b"] =
      extract_output_addresses ["component: 1a2b"] := by
  exact (claim6_pattern_priority_order "hello world" ["component: 1a2b"]).2.2.1 (by decide)

/-! ## Claim C7 -/

/-- Claim C7 counterexample: on the line consisting of the label
`account component address:` plus a hex token, only one pattern matches —
the text `component:` does not occur inside `component address:` — so
exactly one address is appended, not several. -/
theorem claim7_account_label_counterexample :
    extract_output_addresses ["account component address: 1a2b"] = ["1a2b"] ∧
    ¬ 2 ≤ (extract_output_addresses ["account component address: 1a2b"]).length := by
  refine ⟨by decide, by decide⟩

/-- Claim C7 (amended): the account-component-address label alone matches
only its own pattern (the fourth), contributing exactly one address; a single
line contributes several (non-deduplicated) addresses only when it contains
several pattern labels. -/
theorem claim7_account_label_single_match :
    (address_extract_labels.map fun lab =>
        searchLabelHex lab "account component address: 1a2b") =
      [none, none, none, some "1a2b", none] ∧
    extract_output_addresses ["component: 1a2b resource: ff"] = ["1a2b", "ff"] ∧
    2 ≤ (extract_output_addresses ["component: 1a2b resource: ff"]).length := by
  refine ⟨by decide, by decide, by decide⟩

/-! ## Claim C8 -/

/-- Claim C8: every run performs exactly one write to the persisted binding
file, as its last effect, with one `name=address` line per binding-map entry
in map order (the write is a whole-content, mode-`"w"` write, so prior
content is discarded); a directive source of only comment and blank lines
yields an empty binding file. -/
theorem claim8_env_write_once (w : World) (lines : List String) :
    ((process_inputfile w lines).2.filter isEnvWrite) =
      [Effect.fileWrite ENV_FILE (envLines (process_inputfile w lines).1)] ∧
    (process_inputfile w lines).2.getLast? =
      some (Effect.fileWrite ENV_FILE (envLines (process_inputfile w lines).1)) ∧
    (lines.all skipLine = true →
      (process_inputfile w lines).2 = [Effect.fileWrite ENV_FILE []] ∧
      (process_inputfile w lines).1 = []) := by
  have hfst : (process_inputfile w lines).1 = (runLines w [] lines).1 := rfl
  have hsnd : (process_inputfile w lines).2 =
      (runLines w [] lines).2 ++
        [Effect.fileWrite ENV_FILE (envLines (runLines w [] lines).1)] := rfl
  refine ⟨?_, ?_, ?_⟩
  · rw [hsnd, List.filter_append]
    have h1 : (runLines w [] lines).2.filter isEnvWrite = [] := by
      rw [List.filter_eq_nil_iff]
      intro e he
      simp [runLines_effects_no_env w [] lines e he]
    rw [h1, List.nil_append, hfst]
    simp [isEnvWrite]
  · rw [hsnd, List.getLast?_concat, hfst]
  · intro hall
    have hrun := runLines_all_skip w [] lines hall
    constructor
    · rw [hsnd, hrun]
      simp [envLines]
    · rw [hfst, hrun]

/-- Instance check for `claim8_env_write_once` on a comment-and-blank-only
source: the env file is written once, empty. -/
theorem claim8_env_write_once_witness :
    (process_inputfile wNone ["//c\n", "\n"]).2 = [Effect.fileWrite ENV_FILE []] ∧
    (process_inputfile wNone ["//c\n", "\n"]).1 = [] := by
  exact (claim8_env_write_once wNone ["//c\n", "\n"]).2.2 (by decide)

/-! ## Claim C9 -/

/-- Claim C9: across one interpreter run the binding map only grows — keys
stay unique after every step, every bound name stays bound through all later
directives, a directive changes no binding of a name it does not declare,
and a declared name (whether fresh or re-bound) ends the step mapped to its
positionally assigned new address, so re-binding an existing name overwrites
its address. -/
theorem claim9_monotone_binding_map :
    (∀ (w : World) (m : PropsMap) (line : String),
      nodupKeys m → nodupKeys (processLine w m line).1) ∧
    (∀ (w : World) (m : PropsMap) (line : String) (q : String),
      q ∈ dictKeys m → q ∈ dictKeys (processLine w m line).1) ∧
    (∀ (w : World) (l1 l2 : List String) (q : String),
      q ∈ dictKeys (runLines w [] l1).1 → q ∈ dictKeys (runLines w [] (l1 ++ l2)).1) ∧
    (∀ (w : World) (lines : List String), nodupKeys (runLines w [] lines).1) ∧
    (∀ (w : World) (m : PropsMap) (line : String) (q : String),
      q ∉ directiveNames line →
      dictLookup (processLine w m line).1 q = dictLookup m q) ∧
    (∀ (w : World) (m : PropsMap) (line : String) (spec : String) (i : Nat),
      skipLine line = false →
      (parseDirective line).2 = some spec →
      (declNames spec).Nodup →
      (declNames spec).length ≤ (execute w (parseDirective line).1 m).1.toList.length →
      ∀ (hi : i < (declNames spec).length)
        (hj : i < (execute w (parseDirective line).1 m).1.toList.length),
        dictLookup (processLine w m line).1 ((declNames spec).get ⟨i, hi⟩) =
          some ((execute w (parseDirective line).1 m).1.toList.get ⟨i, hj⟩)) := by
  refine ⟨processLine_fst_nodup, processLine_fst_mem_keys, ?_, ?_,
    processLine_fst_lookup_notDecl, ?_⟩
  · intro w l1 l2 q hq
    rw [runLines_append]
    exact runLines_fst_mem_keys w _ l2 q hq
  · intro w lines
    exact runLines_fst_nodup w [] lines (by simp [nodupKeys, dictKeys])
  · intro w m line spec i hskip hpd hnd hle hi hj
    unfold processLine
    rw [if_neg (by simp [hskip])]
    simp only [hpd]
    exact lookup_merge_populate_get m spec _ hle hnd i hi hj

/-- Instance check for `claim9_monotone_binding_map`: a name bound by an
early directive is still bound after later directives, keys stay unique,
an untouched name keeps its value, and a re-bound name receives the new
address. -/
theorem claim9_monotone_binding_map_witness :
    "a" ∈ dictKeys (runLines wComponent [] (["new -> a\n"] ++ ["bar\n"])).1 ∧
    nodupKeys (runLines wComponent [] ["new -> a\n"]).1 ∧
    dictLookup (processLine wComponent [("a", "00"), ("z", "9")] "new -> a\n").1 "z" =
      some "9" ∧
    dictLookup (processLine wComponent [("a", "00"), ("z", "9")] "new -> a\n").1 "a" =
      some "ff" := by
  refine ⟨?_, ?_, ?_, ?_⟩
  · exact claim9_monotone_binding_map.2.2.1 wComponent ["new -> a\n"] ["bar\n"] "a" (by decide)
  · exact claim9_monotone_binding_map.2.2.2.1 wComponent ["new -> a\n"]
  · exact claim9_monotone_binding_map.2.2.2.2.1 wComponent [("a", "00"), ("z", "9")]
      "new -> a\n" "z" (by decide)
  · exact claim9_monotone_binding_map.2.2.2.2.2 wComponent [("a", "00"), ("z", "9")]
      "new -> a\n" "a" 0 (by decide) (by decide) (by decide) (by decide) (by decide)
      (by decide)

/-! ## Claim C10 -/

/-- Claim C10: a manifest-mode command never spawns the external simulator
and never applies variable substitution to the command text — the manifest
filename is located in the raw command, the only effects are the manifest
read and (for a nonempty manifest) the `.dat` write, and the interpreter
always receives the empty mapping, so the resolved manifest is never
submitted to the tool. -/
theorem claim10_manifest_mode_frame (w : World) (cmd : String) (props : PropsMap)
    (hrun : isRunManifestL cmd.data = true) :
    (findRtmS cmd).isSome = true ∧
    (execute w cmd props).1 = ExecResult.emptyDict ∧
    (∀ e ∈ (execute w cmd props).2, e.isSpawn = false) ∧
    (∀ fname, findRtmS cmd = some fname →
      (execute w cmd props).2 = [Effect.fileRead fname] ∨
      (execute w cmd props).2 = [Effect.fileRead fname,
        Effect.fileWrite (fname ++ ".dat")
          (((w.manifestFile fname).getD []).map fun line => substAllLine line props)]) := by
  have hexec1 : (execute w cmd props).1 = ExecResult.emptyDict := by
    unfold execute
    rw [if_pos hrun]
  have hexec2 : (execute w cmd props).2 = do_run_manifest w cmd props := by
    unfold execute
    rw [if_pos hrun]
  refine ⟨?_, hexec1, ?_, ?_⟩
  · have hs := isRunManifest_find cmd.data hrun
    rcases Option.isSome_iff_exists.mp hs with ⟨g, hg⟩
    unfold findRtmS
    rw [hg]
    rfl
  · intro e he
    rw [hexec2] at he
    exact do_run_manifest_no_spawn w cmd props e he
  · intro fname hfind
    rw [hexec2]
    unfold do_run_manifest
    rw [hfind]
    dsimp only
    cases hm : w.manifestFile fname with
    | none => exact Or.inl rfl
    | some content =>
      dsimp only
      by_cases h0 : 0 < content.length
      · rw [if_pos h0]
        right
        simp
      · rw [if_neg h0]
        exact Or.inl rfl

/-- Instance check for `claim10_manifest_mode_frame` on a concrete
manifest-mode command. -/
theorem claim10_manifest_mode_frame_witness :
    (execute wManifest "run the ab.rtm" []).1 = ExecResult.emptyDict ∧
    ((execute wManifest "run the ab.rtm" []).2 = [Effect.fileRead "ab.rtm"] ∨
      (execute wManifest "run the ab.rtm" []).2 = [Effect.fileRead "ab.rtm",
        Effect.fileWrite ("ab.rtm" ++ ".dat")
          (((wManifest.manifestFile "ab.rtm").getD []).map
            fun line => substAllLine line [])]) := by
  have h := claim10_manifest_mode_frame wManifest "run the ab.rtm" [] (by decide)
  exact ⟨h.2.1, h.2.2.2 "ab.rtm" (by decide)⟩

end Revup
